import Mathlib

/-!
# platform_common: query prettier and transaction-aware executor

A shallow embedding of `pkg/db/prettier/query_prettier.go` and `pkg/db/pg/pg.go`.

Modelling choices:

* Go strings are lists of Unicode code points (`Str`), that is valid UTF-8 text; on such
  text the byte-wise substring search of `strings.Replace` coincides with the search on code
  points, and `%q` never meets an invalid byte.
* The standard library functions `Pretty` calls (`strconv.Itoa`, `strconv.Quote`,
  `strings.Replace`, `strings.ReplaceAll`, `strings.TrimSpace`, `unicode.IsSpace`) are
  written out. The generated Unicode table behind `strconv.IsPrint` above U+00FF is a
  parameter `tbl`; every statement holds for every table.
* The executor is a state-passing function on a `World` that records, in order, what it
  does to the tracer, the logger, the driver and the row decoder. The answers of the driver
  come from a `Driver` record and may depend on the whole history.
* A `context.Context` is a non-nil chain of `context.WithValue` nodes.
-/

namespace prettier

/-- A Go string, as the sequence of its code points. -/
abbrev Str := List Char

/-- PlaceholderDollar represents the placeholder used in SQL queries for dollar sign syntax. -/
def PlaceholderDollar : Str := ['$']

/-- PlaceholderQuestion represents the placeholder used in SQL queries for question mark syntax. -/
def PlaceholderQuestion : Str := ['?']

/-- Decimal digits of `n`, most significant first; `fuel` bounds the number of divisions. -/
def itoaAux : Nat → Nat → Str
  | 0, n => [Nat.digitChar (n % 10)]
  | fuel + 1, n =>
    if n < 10 then [Nat.digitChar n]
    else itoaAux fuel (n / 10) ++ [Nat.digitChar (n % 10)]

/-- The function `strconv.Itoa` on a non-negative integer. -/
def Itoa (n : Nat) : Str := itoaAux n n

/-- The verb `%v` applied to a Go `int`. -/
def formatInt (v : Int) : Str :=
  match v with
  | Int.ofNat n => Itoa n
  | Int.negSucc n => '-' :: Itoa (n + 1)

/-- The dynamic values `Pretty` receives in `args ...any`, split the way its type switch
splits them: `string`, `[]byte`, and the `default` branch. For the default branch an `int`
is kept concrete; every other value is represented by the text `%v` prints for it. -/
inductive Arg where
  | str (v : Str)
  | bytes (v : Str)
  | int (v : Int)
  | other (text : Str)
  deriving DecidableEq

/-- The function `strconv.IsPrint`. Latin-1 is decided as in the Go source; above U+00FF
Go consults generated Unicode tables, taken here as the parameter `tbl`. -/
def IsPrint (tbl : Char → Bool) (r : Char) : Bool :=
  if r.toNat ≤ 0xFF then
    if 0x20 ≤ r.toNat ∧ r.toNat ≤ 0x7E then true
    else if 0xA1 ≤ r.toNat ∧ r.toNat ≤ 0xFF then r.toNat != 0xAD
    else false
  else tbl r

/-- One digit of `lowerhex = "0123456789abcdef"`, for `n < 16`. -/
def hexDigit (n : Nat) : Char := Nat.digitChar (n % 16)

/-- The function `appendEscapedRune` of `strconv` with quote `"`, `ASCIIonly = false`,
`graphicOnly = false`: the text `%q` emits for one rune. -/
def escapeRune (tbl : Char → Bool) (r : Char) : Str :=
  if r = '"' ∨ r = '\\' then ['\\', r]
  else if IsPrint tbl r then [r]
  else if r.toNat = 7 then ['\\', 'a']
  else if r.toNat = 8 then ['\\', 'b']
  else if r.toNat = 12 then ['\\', 'f']
  else if r = '\n' then ['\\', 'n']
  else if r = '\r' then ['\\', 'r']
  else if r = '\t' then ['\\', 't']
  else if r.toNat = 11 then ['\\', 'v']
  else if r.toNat < 0x20 ∨ r.toNat = 0x7F then
    ['\\', 'x', hexDigit (r.toNat / 16), hexDigit r.toNat]
  else if r.toNat < 0x10000 then
    ['\\', 'u', hexDigit (r.toNat / 4096), hexDigit (r.toNat / 256),
      hexDigit (r.toNat / 16), hexDigit r.toNat]
  else
    ['\\', 'U', hexDigit (r.toNat / 268435456), hexDigit (r.toNat / 16777216),
      hexDigit (r.toNat / 1048576), hexDigit (r.toNat / 65536),
      hexDigit (r.toNat / 4096), hexDigit (r.toNat / 256),
      hexDigit (r.toNat / 16), hexDigit r.toNat]

/-- The function `strconv.Quote`, which is what `fmt.Sprintf("%q", s)` prints for a string. -/
def Quote (tbl : Char → Bool) (s : Str) : Str :=
  '"' :: (s.flatMap (escapeRune tbl) ++ ['"'])

/-- The `value` computed by the type switch in the body of `Pretty`. -/
def render (tbl : Char → Bool) : Arg → Str
  | Arg.str v => Quote tbl v
  | Arg.bytes v => Quote tbl v
  | Arg.int v => formatInt v
  | Arg.other text => text

/-- Left-to-right scan replacing non-overlapping occurrences of a non-empty `old` by `new`.
The counter is the number of characters of the current match still to be skipped. -/
def replaceScan (old new : Str) : Nat → Str → Str
  | _, [] => []
  | k + 1, _ :: cs => replaceScan old new k cs
  | 0, c :: cs =>
    if old.isPrefixOf (c :: cs) then new ++ replaceScan old new (old.length - 1) cs
    else c :: replaceScan old new 0 cs

/-- The call `strings.Replace(s, old, new, -1)`: every non-overlapping instance of `old`,
found left to right, is replaced by `new`; an empty `old` matches before every code point
and at the end. -/
def Replace (s old new : Str) : Str :=
  if old = [] then new ++ s.flatMap (fun c => c :: new)
  else replaceScan old new 0 s

/-- The function `strings.ReplaceAll`. -/
def ReplaceAll (s old new : Str) : Str := Replace s old new

/-- The function `unicode.IsSpace`: the Unicode White_Space property. -/
def isSpace (c : Char) : Bool :=
  let n := c.toNat
  (9 ≤ n && n ≤ 13) || n == 0x20 || n == 0x85 || n == 0xA0 || n == 0x1680 ||
  (0x2000 ≤ n && n ≤ 0x200A) || n == 0x2028 || n == 0x2029 || n == 0x202F ||
  n == 0x205F || n == 0x3000

/-- The function `strings.TrimSpace`. -/
def TrimSpace (s : Str) : Str :=
  ((s.dropWhile isSpace).reverse.dropWhile isSpace).reverse

/-- The `for i, param := range args` loop of `Pretty`, started at index `i`. -/
def substLoop (tbl : Char → Bool) (placeholder : Str) : Nat → Str → List Arg → Str
  | _, query, [] => query
  | i, query, param :: rest =>
    substLoop tbl placeholder (i + 1)
      (Replace query (placeholder ++ Itoa (i + 1)) (render tbl param)) rest

/-- Pretty returns a prettier SQL query. -/
def Pretty (tbl : Char → Bool) (query placeholder : Str) (args : List Arg) : Str :=
  let query := substLoop tbl placeholder 0 query args
  let query := ReplaceAll query ['\t'] []
  let query := ReplaceAll query ['\n'] [' ']
  TrimSpace query

/-! ## Vocabulary of the specification -/

/-- An ASCII decimal digit `0`..`9`. -/
def isDecDigit (c : Char) : Bool := decide (48 ≤ c.toNat) && decide (c.toNat ≤ 57)

/-- The placeholder token of index `i` in the numbered-dollar style: `$i`. -/
def dollarToken (i : Nat) : Str := PlaceholderDollar ++ Itoa i

/-- A rendered value that is not empty and does not begin with a decimal digit. -/
def headPlain (v : Str) : Bool :=
  match v with
  | [] => false
  | h :: _ => !isDecDigit h

/-- A rendered value that cannot interact with dollar placeholders: it contains no `$`,
is not empty, and does not begin with a decimal digit. -/
def plainValue (v : Str) : Bool := !v.contains '$' && headPlain v

/-- The normalisation the specification describes after substitution: tabs stripped, each
newline turned into one space, surrounding whitespace trimmed. -/
def normalise (s : Str) : Str :=
  TrimSpace ((s.filter (fun c => c != '\t')).map (fun c => if c = '\n' then ' ' else c))

end prettier

namespace pg

open prettier (Str Arg Pretty PlaceholderDollar)

/-- A live transaction: a non-nil value implementing `pgx.Tx`, named by a number. -/
structure TxHandle where
  id : Nat
  deriving DecidableEq

/-- Keys under which a `context.Context` stores values. Keys of different Go types are
never equal, whatever their contents. -/
inductive Key where
  | pgKey (s : Str)
  | activeSpan
  | foreign (id : Nat)
  deriving DecidableEq

/-- TxKey is a constant key used to store and retrieve a transaction object in
context.Context: the value `"tx"` of the package's own type `key`. -/
def TxKey : Key := Key.pgKey "tx".toList

/-- A value of type `interface{}` held by a context. -/
inductive Any where
  | null
  | tx (h : TxHandle)
  | span (id : Nat)
  | foreign (id : Nat)
  deriving DecidableEq

/-- A non-nil `context.Context`, as the chain `context.WithValue` builds. -/
inductive Context where
  | background
  | withValue (parent : Context) (key : Key) (val : Any)
  deriving DecidableEq

/-- The method `ctx.Value(key)`: the nearest value stored under `key`, or nil. -/
def Context.Value : Context → Key → Any
  | Context.background, _ => Any.null
  | Context.withValue parent key val, k => if key = k then val else parent.Value k

/-- The expression `ctx.Value(TxKey).(pgx.Tx)` with its `ok` flag. -/
def txOf (ctx : Context) : Option TxHandle :=
  match ctx.Value TxKey with
  | Any.tx h => some h
  | _ => none

/-- MakeContextTx creates a new context with a transaction object attached. The argument
is an interface value of type `pgx.Tx`: `none` is the nil interface. -/
def MakeContextTx (ctx : Context) (tx : Option TxHandle) : Context :=
  Context.withValue ctx TxKey
    (match tx with
     | some h => Any.tx h
     | none => Any.null)

/-- The type `db.Query`. -/
structure Query where
  Name : Str
  QueryRaw : Str
  deriving DecidableEq

/-- A Go `error` value; `msg` is what its method `Error()` returns. -/
structure GoError where
  id : Nat
  msg : Str
  deriving DecidableEq

/-- The receiver of a driver call: the pool `p.dbc` or a transaction. -/
inductive Target where
  | pool
  | tx (h : TxHandle)
  deriving DecidableEq

/-- The value of a span tag. -/
inductive TagValue where
  | text (s : Str)
  | flag (b : Bool)
  deriving DecidableEq

/-- What the executor does to the outside world, in the order it does it. -/
inductive Event where
  | spanStart (span : Nat) (parent : Option Nat) (name : Str) (tags : List (Str × TagValue))
  | spanSetTag (span : Nat) (key : Str) (value : TagValue)
  | spanFinish (span : Nat)
  | logLine (ctx : Context) (name : Str) (query : Str)
  | exec (target : Target) (ctx : Context) (sql : Str) (args : List Arg)
  | query (target : Target) (ctx : Context) (sql : Str) (args : List Arg)
  | queryRow (target : Target) (ctx : Context) (sql : Str) (args : List Arg)
  | beginTx (ctx : Context) (options : Nat)
  | scanOne (rows : Nat)
  | scanAll (rows : Nat)

/-- The state threaded through the executor: the events so far and the next span number. -/
structure World where
  trace : List Event
  nextSpan : Nat

/-- The collaborators the executor calls: the pgx driver, the pgxscan decoder and the
`strconv` print table. Each answer may depend on everything that happened before. -/
structure Driver where
  exec : List Event → Target → Context → Str → List Arg → Str × Option GoError
  query : List Event → Target → Context → Str → List Arg → Nat × Option GoError
  queryRow : List Event → Target → Context → Str → List Arg → Nat
  beginTx : List Event → Context → Nat → Option TxHandle × Option GoError
  scanOne : List Event → Nat → Option GoError
  scanAll : List Event → Nat → Option GoError
  printTable : Char → Bool

/-- Appends one event to the trace. -/
def emit (w : World) (e : Event) : World :=
  { w with trace := w.trace ++ [e] }

/-- The function `opentracing.SpanFromContext`: the span `ctx` carries, if any. -/
def SpanFromContext (ctx : Context) : Option Nat :=
  match ctx.Value Key.activeSpan with
  | Any.span p => some p
  | _ => none

/-- The function `opentracing.ContextWithSpan`. -/
def ContextWithSpan (ctx : Context) (span : Nat) : Context :=
  Context.withValue ctx Key.activeSpan (Any.span span)

/-- The function `opentracing.StartSpanFromContext`: a new span, child of the span found
in `ctx`, and the context that carries it. -/
def StartSpanFromContext (w : World) (ctx : Context) (name : Str)
    (tags : List (Str × TagValue)) : (Nat × Context) × World :=
  ((w.nextSpan, ContextWithSpan ctx w.nextSpan),
    { trace := w.trace ++ [Event.spanStart w.nextSpan (SpanFromContext ctx) name tags],
      nextSpan := w.nextSpan + 1 })

/-- The two statements `ext.Error.Set(span, true)` and `span.SetTag("err", err.Error())`. -/
def tagError (w : World) (span : Nat) (err : GoError) : World :=
  emit (emit w (Event.spanSetTag span "error".toList (TagValue.flag true)))
    (Event.spanSetTag span "err".toList (TagValue.text err.msg))

/-- The function `logQuery`: one log line with the context, the query name and the
prettified query. -/
def logQuery (d : Driver) (w : World) (ctx : Context) (q : Query) (args : List Arg) : World :=
  let prettyQuery := Pretty d.printTable q.QueryRaw PlaceholderDollar args
  emit w (Event.logLine ctx ("sql: ".toList ++ q.Name) ("query: ".toList ++ prettyQuery))

/-- The method `ExecContext`. -/
def ExecContext (d : Driver) (w : World) (ctx : Context) (q : Query) (args : List Arg) :
    (Str × Option GoError) × World :=
  let ((span, ctx), w) :=
    StartSpanFromContext w ctx q.Name [("query".toList, TagValue.text q.QueryRaw)]
  let w := logQuery d w ctx q args
  let ((pgc, err), w) :=
    match txOf ctx with
    | some tx =>
      (d.exec w.trace (Target.tx tx) ctx q.QueryRaw args,
        emit w (Event.exec (Target.tx tx) ctx q.QueryRaw args))
    | none =>
      (d.exec w.trace Target.pool ctx q.QueryRaw args,
        emit w (Event.exec Target.pool ctx q.QueryRaw args))
  match err with
  | some e =>
    let w := tagError w span e
    ((pgc, some e), emit w (Event.spanFinish span))
  | none => ((pgc, none), emit w (Event.spanFinish span))

/-- The method `QueryContext`. -/
def QueryContext (d : Driver) (w : World) (ctx : Context) (q : Query) (args : List Arg) :
    (Nat × Option GoError) × World :=
  let ((span, ctx), w) :=
    StartSpanFromContext w ctx q.Name [("query".toList, TagValue.text q.QueryRaw)]
  let w := logQuery d w ctx q args
  let ((rows, err), w) :=
    match txOf ctx with
    | some tx =>
      (d.query w.trace (Target.tx tx) ctx q.QueryRaw args,
        emit w (Event.query (Target.tx tx) ctx q.QueryRaw args))
    | none =>
      (d.query w.trace Target.pool ctx q.QueryRaw args,
        emit w (Event.query Target.pool ctx q.QueryRaw args))
  match err with
  | some e =>
    let w := tagError w span e
    ((rows, some e), emit w (Event.spanFinish span))
  | none => ((rows, none), emit w (Event.spanFinish span))

/-- The method `QueryRowContext`. -/
def QueryRowContext (d : Driver) (w : World) (ctx : Context) (q : Query) (args : List Arg) :
    Nat × World :=
  let ((span, ctx), w) :=
    StartSpanFromContext w ctx q.Name [("query".toList, TagValue.text q.QueryRaw)]
  let w := logQuery d w ctx q args
  match txOf ctx with
  | some tx =>
    let row := d.queryRow w.trace (Target.tx tx) ctx q.QueryRaw args
    let w := emit w (Event.queryRow (Target.tx tx) ctx q.QueryRaw args)
    (row, emit w (Event.spanFinish span))
  | none =>
    let row := d.queryRow w.trace Target.pool ctx q.QueryRaw args
    let w := emit w (Event.queryRow Target.pool ctx q.QueryRaw args)
    (row, emit w (Event.spanFinish span))

/-- The method `ScanOneContext`; the destination is left out, the decoder answers through `d.scanOne`. -/
def ScanOneContext (d : Driver) (w : World) (ctx : Context) (q : Query) (args : List Arg) :
    Option GoError × World :=
  let ((span, ctx), w) :=
    StartSpanFromContext w ctx q.Name [("query".toList, TagValue.text q.QueryRaw)]
  let w := logQuery d w ctx q args
  let ((row, err), w) := QueryContext d w ctx q args
  match err with
  | some e =>
    let w := tagError w span e
    (some e, emit w (Event.spanFinish span))
  | none =>
    let err := d.scanOne w.trace row
    let w := emit w (Event.scanOne row)
    match err with
    | some e =>
      let w := tagError w span e
      (some e, emit w (Event.spanFinish span))
    | none => (none, emit w (Event.spanFinish span))

/-- The method `ScanAllContext`; the destination is left out, the decoder answers through `d.scanAll`. -/
def ScanAllContext (d : Driver) (w : World) (ctx : Context) (q : Query) (args : List Arg) :
    Option GoError × World :=
  let ((span, ctx), w) :=
    StartSpanFromContext w ctx q.Name [("query".toList, TagValue.text q.QueryRaw)]
  let w := logQuery d w ctx q args
  let ((rows, err), w) := QueryContext d w ctx q args
  match err with
  | some e =>
    let w := tagError w span e
    (some e, emit w (Event.spanFinish span))
  | none =>
    let err := d.scanAll w.trace rows
    let w := emit w (Event.scanAll rows)
    match err with
    | some e =>
      let w := tagError w span e
      (some e, emit w (Event.spanFinish span))
    | none => (none, emit w (Event.spanFinish span))

/-- The method `BeginTx`. -/
def BeginTx (d : Driver) (w : World) (ctx : Context) (txOptions : Nat) :
    (Option TxHandle × Option GoError) × World :=
  let ((span, ctx), w) := StartSpanFromContext w ctx "BeginTx".toList []
  let r := d.beginTx w.trace ctx txOptions
  let w := emit w (Event.beginTx ctx txOptions)
  (r, emit w (Event.spanFinish span))

/-- A driver call seen without its context: which method, on whom, with what. -/
inductive DriverCall where
  | exec (target : Target) (sql : Str) (args : List Arg)
  | query (target : Target) (sql : Str) (args : List Arg)
  | queryRow (target : Target) (sql : Str) (args : List Arg)
  | beginTx (options : Nat)
  deriving DecidableEq

/-- The driver call an event records, if it records one. -/
def Event.driverCall : Event → Option DriverCall
  | Event.exec target _ sql args => some (DriverCall.exec target sql args)
  | Event.query target _ sql args => some (DriverCall.query target sql args)
  | Event.queryRow target _ sql args => some (DriverCall.queryRow target sql args)
  | Event.beginTx _ options => some (DriverCall.beginTx options)
  | _ => none

/-- The driver calls made between the world `w` and the later world `w2`. -/
def driverCallsSince (w w2 : World) : List DriverCall :=
  (w2.trace.drop w.trace.length).filterMap Event.driverCall

/-- The events added between the world `w` and the later world `w2`. -/
def eventsSince (w w2 : World) : List Event :=
  w2.trace.drop w.trace.length

/-- The receiver the routing rule of the specification selects: the transaction carried by
the context if there is one, the pool otherwise. -/
def route (ctx : Context) : Target :=
  match txOf ctx with
  | some tx => Target.tx tx
  | none => Target.pool

/-- The world in which a routed operation reaches its driver call: the span of the call
has been started and the query has been logged. -/
def prologue (d : Driver) (w : World) (ctx : Context) (q : Query) (args : List Arg) : World :=
  logQuery d
    (StartSpanFromContext w ctx q.Name [("query".toList, TagValue.text q.QueryRaw)]).2
    (ContextWithSpan ctx w.nextSpan) q args

/-- A driver on which every call fails with the same error. -/
def failingDriver (e : GoError) : Driver where
  exec := fun _ _ _ _ _ => ([], some e)
  query := fun _ _ _ _ _ => (0, some e)
  queryRow := fun _ _ _ _ _ => 0
  beginTx := fun _ _ _ => (none, some e)
  scanOne := fun _ _ => some e
  scanAll := fun _ _ => some e
  printTable := fun _ => true

/-- A driver on which every call succeeds. -/
def healthyDriver : Driver where
  exec := fun _ _ _ _ _ => ("INSERT 0 1".toList, none)
  query := fun _ _ _ _ _ => (1, none)
  queryRow := fun _ _ _ _ _ => 1
  beginTx := fun _ _ _ => (some ⟨1⟩, none)
  scanOne := fun _ _ => none
  scanAll := fun _ _ => none
  printTable := fun _ => true

end pg

/-! ## The formatter: lemmas -/

namespace prettier

theorem replaceScan_skip (old new : Str) (k : Nat) (s : Str) :
    replaceScan old new k s = replaceScan old new 0 (s.drop k) := by
  induction s generalizing k with
  | nil => cases k <;> simp [replaceScan]
  | cons c cs ih =>
    cases k with
    | zero => simp
    | succ k => simp only [replaceScan, List.drop_succ_cons]; exact ih k

theorem replaceScan_match (old new : Str) (hold : old ≠ []) (rest : Str) :
    replaceScan old new 0 (old ++ rest) = new ++ replaceScan old new 0 rest := by
  cases old with
  | nil => exact absurd rfl hold
  | cons d ds =>
    have hp : (d :: ds).isPrefixOf (d :: (ds ++ rest)) = true := by
      rw [List.isPrefixOf_iff_prefix]; exact List.prefix_append (d :: ds) rest
    simp only [List.cons_append, replaceScan, hp, if_true]
    rw [replaceScan_skip]
    simp

theorem replaceScan_nomatch (old new : Str) (c : Char) (cs : Str)
    (h : ¬ old <+: c :: cs) :
    replaceScan old new 0 (c :: cs) = c :: replaceScan old new 0 cs := by
  have hp : old.isPrefixOf (c :: cs) = false := by
    rw [← Bool.not_eq_true, List.isPrefixOf_iff_prefix]; exact h
  simp [replaceScan, hp]

/-- Every character of the result comes from the input or from the replacement. -/
theorem mem_replaceScan (old new : Str) (hold : old ≠ []) (x : Char) :
    ∀ (n : Nat) (s : Str), s.length ≤ n → x ∈ replaceScan old new 0 s → x ∈ s ∨ x ∈ new := by
  intro n
  induction n with
  | zero =>
    intro s hs hx
    have : s = [] := List.length_eq_zero.mp (Nat.le_zero.mp hs)
    subst this; simp [replaceScan] at hx
  | succ n ih =>
    intro s hs hx
    cases s with
    | nil => simp [replaceScan] at hx
    | cons c cs =>
      by_cases h : old <+: c :: cs
      · obtain ⟨rest, hrest⟩ := h
        rw [← hrest, replaceScan_match old new hold rest] at hx
        rcases List.mem_append.mp hx with h1 | h1
        · exact Or.inr h1
        · have hlen : rest.length ≤ n := by
            have h2 := congrArg List.length hrest
            have h3 : 0 < old.length := List.length_pos.mpr hold
            simp only [List.length_append, List.length_cons] at h2 hs
            omega
          rcases ih rest hlen h1 with h4 | h4
          · left; rw [← hrest]; exact List.mem_append_right _ h4
          · exact Or.inr h4
      · rw [replaceScan_nomatch old new c cs h] at hx
        rcases List.mem_cons.mp hx with h1 | h1
        · left; rw [h1]; exact List.mem_cons_self _ _
        · have hlen : cs.length ≤ n := by simp at hs; omega
          rcases ih cs hlen h1 with h4 | h4
          · left; exact List.mem_cons_of_mem _ h4
          · exact Or.inr h4

/-- A pattern that starts with a character absent from `u` cannot begin inside `u`. -/
theorem infix_append_of_head_not_mem (d : Char) (ds u Y : Str) (hu : d ∉ u)
    (h : (d :: ds) <:+: u ++ Y) : (d :: ds) <:+: Y := by
  induction u with
  | nil => simpa using h
  | cons c u ih =>
    rw [List.cons_append, List.infix_cons_iff] at h
    rcases h with h | h
    · rw [List.prefix_cons_iff] at h
      rcases h with h | ⟨t, ht, -⟩
      · cases h
      · injection ht with h1 _
        exact absurd (h1 ▸ List.mem_cons_self _ _) hu
    · exact ih (fun hm => hu (List.mem_cons_of_mem _ hm)) h

/-- A run of characters from `D` that is a prefix of the scan result is a prefix of the
input, when the replacement begins with a character outside `D`. -/
theorem prefix_of_prefix_replaceScan (D : Char → Prop) (old new : Str) (hold : old ≠ [])
    (hnew : ∃ h t, new = h :: t ∧ ¬ D h) :
    ∀ (ds s : Str), (∀ c ∈ ds, D c) → ds <+: replaceScan old new 0 s → ds <+: s := by
  intro ds
  induction ds with
  | nil => intro s _ _; exact List.nil_prefix
  | cons e ds ih =>
    intro s hD hp
    cases s with
    | nil => simp [replaceScan] at hp
    | cons c cs =>
      by_cases h : old <+: c :: cs
      · obtain ⟨rest, hrest⟩ := h
        obtain ⟨hd, tl, hnw, hnD⟩ := hnew
        rw [← hrest, replaceScan_match old new hold rest, hnw, List.cons_append,
          List.cons_prefix_cons] at hp
        exact absurd (hp.1 ▸ hD e (List.mem_cons_self _ _)) hnD
      · rw [replaceScan_nomatch old new c cs h, List.cons_prefix_cons] at hp
        rw [List.cons_prefix_cons]
        exact ⟨hp.1, ih cs (fun x hx => hD x (List.mem_cons_of_mem _ hx)) hp.2⟩

/-- The scan never creates an occurrence of `d :: ds` (with `ds` drawn from `D`) when the
replacement contains no `d` and begins with a character outside `D`. -/
theorem infix_of_infix_replaceScan (D : Char → Prop) (old new : Str) (hold : old ≠ [])
    (hnew : ∃ h t, new = h :: t ∧ ¬ D h) (d : Char) (hd : d ∉ new)
    (ds : Str) (hD : ∀ c ∈ ds, D c) :
    ∀ (n : Nat) (s : Str), s.length ≤ n →
      (d :: ds) <:+: replaceScan old new 0 s → (d :: ds) <:+: s := by
  intro n
  induction n with
  | zero =>
    intro s hs hx
    have : s = [] := List.length_eq_zero.mp (Nat.le_zero.mp hs)
    subst this; simp [replaceScan] at hx
  | succ n ih =>
    intro s hs hx
    cases s with
    | nil => simp [replaceScan] at hx
    | cons c cs =>
      by_cases h : old <+: c :: cs
      · obtain ⟨rest, hrest⟩ := h
        rw [← hrest, replaceScan_match old new hold rest] at hx
        have h1 := infix_append_of_head_not_mem d ds new _ hd hx
        have hlen : rest.length ≤ n := by
          have h2 := congrArg List.length hrest
          have h3 : 0 < old.length := List.length_pos.mpr hold
          simp only [List.length_append, List.length_cons] at h2 hs
          omega
        have h2 := ih rest hlen h1
        rw [← hrest]
        exact h2.trans (List.suffix_append old rest).isInfix
      · rw [replaceScan_nomatch old new c cs h, List.infix_cons_iff] at hx
        rw [List.infix_cons_iff]
        rcases hx with hx | hx
        · left
          rw [List.cons_prefix_cons] at hx ⊢
          exact ⟨hx.1, prefix_of_prefix_replaceScan D old new hold hnew ds cs hD hx.2⟩
        · right
          exact ih cs (by simp at hs; omega) hx

/-- After the scan no occurrence of `old = d :: ds` is left. -/
theorem not_infix_replaceScan_self (D : Char → Prop) (new : Str)
    (hnew : ∃ h t, new = h :: t ∧ ¬ D h) (d : Char) (hd : d ∉ new)
    (ds : Str) (hD : ∀ c ∈ ds, D c) :
    ∀ (n : Nat) (s : Str), s.length ≤ n →
      ¬ (d :: ds) <:+: replaceScan (d :: ds) new 0 s := by
  intro n
  induction n with
  | zero =>
    intro s hs hx
    have : s = [] := List.length_eq_zero.mp (Nat.le_zero.mp hs)
    subst this; simp [replaceScan] at hx
  | succ n ih =>
    intro s hs hx
    cases s with
    | nil => simp [replaceScan] at hx
    | cons c cs =>
      by_cases h : (d :: ds) <+: c :: cs
      · obtain ⟨rest, hrest⟩ := h
        rw [← hrest, replaceScan_match (d :: ds) new (List.cons_ne_nil _ _) rest] at hx
        have h1 := infix_append_of_head_not_mem d ds new _ hd hx
        have hlen : rest.length ≤ n := by
          have h2 := congrArg List.length hrest
          simp only [List.length_append, List.length_cons] at h2 hs
          omega
        exact ih rest hlen h1
      · rw [replaceScan_nomatch (d :: ds) new c cs h, List.infix_cons_iff] at hx
        rcases hx with hx | hx
        · apply h
          rw [List.cons_prefix_cons] at hx ⊢
          exact ⟨hx.1, prefix_of_prefix_replaceScan D (d :: ds) new (List.cons_ne_nil _ _)
            hnew ds cs hD hx.2⟩
        · exact ih cs (by simp at hs; omega) hx

theorem digitChar_isDigit (n : Nat) (h : n < 10) : isDecDigit (Nat.digitChar n) = true := by
  interval_cases n <;> decide

theorem itoaAux_isDigit (fuel n : Nat) : ∀ c ∈ itoaAux fuel n, isDecDigit c = true := by
  induction fuel generalizing n with
  | zero =>
    intro c hc
    simp only [itoaAux, List.mem_singleton] at hc
    rw [hc]; exact digitChar_isDigit _ (Nat.mod_lt _ (by decide))
  | succ fuel ih =>
    intro c hc
    unfold itoaAux at hc
    split at hc
    · rename_i hlt
      simp only [List.mem_singleton] at hc
      rw [hc]; exact digitChar_isDigit _ hlt
    · rcases List.mem_append.mp hc with h | h
      · exact ih _ c h
      · simp only [List.mem_singleton] at h
        rw [h]; exact digitChar_isDigit _ (Nat.mod_lt _ (by decide))

theorem Itoa_isDigit (n : Nat) : ∀ c ∈ Itoa n, isDecDigit c = true := itoaAux_isDigit n n

theorem hexDigit_ne_dollar (n : Nat) : hexDigit n ≠ '$' := by
  unfold hexDigit
  have h : n % 16 < 16 := Nat.mod_lt _ (by decide)
  interval_cases (n % 16) <;> decide

theorem hexDigit_ne_tab (n : Nat) : hexDigit n ≠ '\t' := by
  unfold hexDigit
  have h : n % 16 < 16 := Nat.mod_lt _ (by decide)
  interval_cases (n % 16) <;> decide

theorem ite_not_mem {α : Type} (x : α) (c : Prop) [Decidable c] (a b : List α)
    (ha : c → x ∉ a) (hb : ¬ c → x ∉ b) : x ∉ (if c then a else b) := by
  by_cases h : c
  · rw [if_pos h]; exact ha h
  · rw [if_neg h]; exact hb h

theorem not_mem_escapeRune_dollar (tbl : Char → Bool) (r : Char) (hr : r ≠ '$') :
    '$' ∉ escapeRune tbl r := by
  have h1 := fun n => (hexDigit_ne_dollar n).symm
  have h2 := hr.symm
  unfold escapeRune
  repeat' (apply ite_not_mem <;> intro _)
  all_goals simp only [List.mem_cons, List.mem_singleton, List.not_mem_nil, not_or, or_false]
  all_goals repeat' apply And.intro
  all_goals first | exact h2 | exact h1 _ | decide

theorem IsPrint_tab (tbl : Char → Bool) : IsPrint tbl '\t' = false := by
  simp [IsPrint]

theorem not_mem_escapeRune_tab (tbl : Char → Bool) (r : Char) :
    '\t' ∉ escapeRune tbl r := by
  have h1 := fun n => (hexDigit_ne_tab n).symm
  unfold escapeRune
  apply ite_not_mem <;> intro hq
  · rcases hq with hq | hq <;> rw [hq] <;> decide
  apply ite_not_mem <;> intro hp
  · intro hm
    rw [List.mem_singleton] at hm
    rw [← hm, IsPrint_tab] at hp
    exact absurd hp (by decide)
  repeat' (apply ite_not_mem <;> intro _)
  all_goals simp only [List.mem_cons, List.mem_singleton, List.not_mem_nil, not_or, or_false]
  all_goals repeat' apply And.intro
  all_goals first | exact h1 _ | decide

theorem not_mem_Quote_dollar (tbl : Char → Bool) (s : Str) (hs : '$' ∉ s) :
    '$' ∉ Quote tbl s := by
  unfold Quote
  simp only [List.mem_cons, List.mem_append, List.mem_flatMap, List.mem_singleton, not_or]
  refine ⟨by decide, ?_, by decide, by simp⟩
  rintro ⟨r, hr, hm⟩
  exact not_mem_escapeRune_dollar tbl r (fun h => hs (h ▸ hr)) hm

theorem not_mem_Quote_tab (tbl : Char → Bool) (s : Str) : '\t' ∉ Quote tbl s := by
  unfold Quote
  simp only [List.mem_cons, List.mem_append, List.mem_flatMap, List.mem_singleton, not_or]
  refine ⟨by decide, ?_, by decide, by simp⟩
  rintro ⟨r, _, hm⟩
  exact not_mem_escapeRune_tab tbl r hm

theorem Replace_tab (s : Str) : Replace s ['\t'] [] = s.filter (fun c => c != '\t') := by
  unfold Replace
  simp only [List.cons_ne_nil, if_false]
  induction s with
  | nil => simp [replaceScan]
  | cons c cs ih =>
    by_cases h : c = '\t'
    · subst h
      simp [replaceScan, List.isPrefixOf, ih]
    · have h2 : ('\t' == c) = false := by
        rw [beq_eq_false_iff_ne]; exact fun e => h e.symm
      simp [replaceScan, List.isPrefixOf, ih, h, h2]

theorem Replace_newline (s : Str) :
    Replace s ['\n'] [' '] = s.map (fun c => if c = '\n' then ' ' else c) := by
  unfold Replace
  simp only [List.cons_ne_nil, if_false]
  induction s with
  | nil => simp [replaceScan]
  | cons c cs ih =>
    by_cases h : c = '\n'
    · subst h
      simp [replaceScan, List.isPrefixOf, ih]
    · have h2 : ('\n' == c) = false := by
        rw [beq_eq_false_iff_ne]; exact fun e => h e.symm
      simp [replaceScan, List.isPrefixOf, ih, h, h2]

theorem TrimSpace_within (s : Str) : TrimSpace s <:+: s := by
  unfold TrimSpace
  have h1 : ((s.dropWhile isSpace).reverse.dropWhile isSpace) <:+ (s.dropWhile isSpace).reverse :=
    List.dropWhile_suffix _
  have h2 : ((s.dropWhile isSpace).reverse.dropWhile isSpace).reverse <+: s.dropWhile isSpace := by
    rw [← List.reverse_suffix, List.reverse_reverse]; exact h1
  exact h2.isInfix.trans (List.dropWhile_suffix _).isInfix

theorem head_dropWhile_isSpace (s : Str) :
    (s.dropWhile isSpace).head?.map isSpace ≠ some true := by
  induction s with
  | nil => simp
  | cons c cs ih =>
    by_cases h : isSpace c = true
    · simpa [List.dropWhile, h] using ih
    · simp [List.dropWhile, h]

theorem TrimSpace_getLast (s : Str) : (TrimSpace s).getLast?.map isSpace ≠ some true := by
  unfold TrimSpace
  rw [List.getLast?_reverse]
  exact head_dropWhile_isSpace _

theorem TrimSpace_head (s : Str) : (TrimSpace s).head?.map isSpace ≠ some true := by
  have h2 : TrimSpace s <+: s.dropWhile isSpace := by
    unfold TrimSpace
    rw [← List.reverse_suffix, List.reverse_reverse]; exact List.dropWhile_suffix _
  have h3 := head_dropWhile_isSpace s
  obtain ⟨t, ht⟩ := h2
  cases hT : TrimSpace s with
  | nil => simp
  | cons c cs =>
    rw [hT] at ht
    rw [← ht] at h3
    simpa using h3

theorem headPlain_spec {v : Str} (h : headPlain v = true) :
    ∃ x t, v = x :: t ∧ ¬ (isDecDigit x = true) := by
  cases v with
  | nil => exact absurd h (by decide)
  | cons x t => exact ⟨x, t, rfl, by simpa [headPlain] using h⟩

theorem plainValue_spec {v : Str} (h : plainValue v = true) :
    '$' ∉ v ∧ ∃ x t, v = x :: t ∧ ¬ (isDecDigit x = true) := by
  unfold plainValue at h
  rw [Bool.and_eq_true] at h
  obtain ⟨h1, h2⟩ := h
  refine ⟨?_, headPlain_spec h2⟩
  intro hm
  have : v.contains '$' = true := by simpa using hm
  rw [this] at h1; exact absurd h1 (by decide)

theorem Replace_eq_replaceScan (s old new : Str) (h : old ≠ []) :
    Replace s old new = replaceScan old new 0 s := by
  unfold Replace; rw [if_neg h]

/-- One step of the loop never creates an occurrence of `$` followed by digits. -/
theorem Replace_no_new_token (q v ds : Str) (i : Nat) (hv : plainValue v = true)
    (hD : ∀ c ∈ ds, isDecDigit c = true)
    (h : ('$' :: ds) <:+: Replace q (PlaceholderDollar ++ Itoa i) v) : ('$' :: ds) <:+: q := by
  obtain ⟨h1, h2⟩ := plainValue_spec hv
  rw [Replace_eq_replaceScan _ _ _ (by simp [PlaceholderDollar])] at h
  exact infix_of_infix_replaceScan (fun c => isDecDigit c = true) _ v
    (by simp [PlaceholderDollar]) h2 '$' h1 ds hD q.length q (Nat.le_refl _) h

/-- One step of the loop removes every occurrence of its own token. -/
theorem Replace_kills_token (q v : Str) (i : Nat) (hv : plainValue v = true) :
    ¬ dollarToken i <:+: Replace q (PlaceholderDollar ++ Itoa i) v := by
  obtain ⟨h1, h2⟩ := plainValue_spec hv
  rw [Replace_eq_replaceScan _ _ _ (by simp [PlaceholderDollar])]
  exact not_infix_replaceScan_self (fun c => isDecDigit c = true) v h2 '$' h1 (Itoa i)
    (Itoa_isDigit i) q.length q (Nat.le_refl _)

theorem substLoop_no_new_token (tbl : Char → Bool) (ds : Str)
    (hD : ∀ c ∈ ds, isDecDigit c = true) (args : List Arg)
    (hargs : ∀ a ∈ args, plainValue (render tbl a) = true) :
    ∀ (i : Nat) (q : Str), ¬ ('$' :: ds) <:+: q →
      ¬ ('$' :: ds) <:+: substLoop tbl PlaceholderDollar i q args := by
  induction args with
  | nil => intro i q h; simpa [substLoop] using h
  | cons a as ih =>
    intro i q h
    simp only [substLoop]
    apply ih (fun b hb => hargs b (List.mem_cons_of_mem _ hb))
    intro hc
    exact h (Replace_no_new_token q _ ds (i + 1) (hargs a (List.mem_cons_self _ _)) hD hc)

/-- After the loop no token whose index the loop has visited is left. -/
theorem substLoop_kills_tokens (tbl : Char → Bool) (args : List Arg)
    (hargs : ∀ a ∈ args, plainValue (render tbl a) = true) :
    ∀ (i : Nat) (q : Str) (j : Nat), i < j → j ≤ i + args.length →
      ¬ dollarToken j <:+: substLoop tbl PlaceholderDollar i q args := by
  induction args with
  | nil => intro i q j h1 h2; simp at h2; omega
  | cons a as ih =>
    intro i q j h1 h2
    simp only [substLoop]
    have has : ∀ b ∈ as, plainValue (render tbl b) = true :=
      fun b hb => hargs b (List.mem_cons_of_mem _ hb)
    by_cases hj : j = i + 1
    · subst hj
      exact substLoop_no_new_token tbl (Itoa (i + 1)) (Itoa_isDigit _) as has (i + 1) _
        (Replace_kills_token q _ (i + 1) (hargs a (List.mem_cons_self _ _)))
    · apply ih has (i + 1) _ j (by omega)
      simp only [List.length_cons] at h2
      omega

theorem Pretty_eq (tbl : Char → Bool) (query placeholder : Str) (args : List Arg) :
    Pretty tbl query placeholder args =
      TrimSpace (((substLoop tbl placeholder 0 query args).filter (fun c => c != '\t')).map
        (fun c => if c = '\n' then ' ' else c)) := by
  unfold Pretty ReplaceAll
  simp only [Replace_tab, Replace_newline]

theorem eq_of_map_newline (p l : Str) (hp : ∀ c ∈ p, c ≠ ' ')
    (h : l.map (fun c => if c = '\n' then ' ' else c) = p) : l = p := by
  induction l generalizing p with
  | nil => simpa using h
  | cons c cs ih =>
    cases p with
    | nil => simp at h
    | cons x xs =>
      simp only [List.map_cons, List.cons.injEq] at h
      obtain ⟨h1, h2⟩ := h
      have hx := hp x (List.mem_cons_self _ _)
      have hc : c = x := by
        by_cases e : c = '\n'
        · rw [if_pos e] at h1; exact absurd h1.symm hx
        · rw [if_neg e] at h1; exact h1
      rw [hc, ih xs (fun y hy => hp y (List.mem_cons_of_mem _ hy)) h2]

theorem infix_of_infix_map_newline (p s : Str) (hp : ∀ c ∈ p, c ≠ ' ')
    (h : p <:+: s.map (fun c => if c = '\n' then ' ' else c)) : p <:+: s := by
  obtain ⟨a, b, hab⟩ := h
  obtain ⟨l1, l2, hs, h1, _⟩ := List.map_eq_append_iff.mp hab.symm
  obtain ⟨l3, l4, hs2, _, h4⟩ := List.map_eq_append_iff.mp h1
  have := eq_of_map_newline p l4 hp h4
  subst this
  exact ⟨l3, l2, by rw [hs, hs2]⟩

theorem dollar_digits_ne_space (ds : Str) (hD : ∀ c ∈ ds, isDecDigit c = true) :
    ∀ c ∈ '$' :: ds, c ≠ ' ' := by
  intro c hc
  rcases List.mem_cons.mp hc with h | h
  · rw [h]; decide
  · intro e
    have := hD c h
    rw [e] at this
    exact absurd this (by decide)

/-- The normalisation performed after the loop creates no token when the text has no tab. -/
theorem infix_of_infix_Pretty (tbl : Char → Bool) (query placeholder : Str) (args : List Arg)
    (ds : Str) (hD : ∀ c ∈ ds, isDecDigit c = true)
    (htab : '\t' ∉ substLoop tbl placeholder 0 query args)
    (h : ('$' :: ds) <:+: Pretty tbl query placeholder args) :
    ('$' :: ds) <:+: substLoop tbl placeholder 0 query args := by
  rw [Pretty_eq] at h
  have h1 := h.trans (TrimSpace_within _)
  have h2 := infix_of_infix_map_newline _ _ (dollar_digits_ne_space ds hD) h1
  have h3 : (substLoop tbl placeholder 0 query args).filter (fun c => c != '\t') =
      substLoop tbl placeholder 0 query args := by
    rw [List.filter_eq_self]
    intro c hc
    simp only [bne_iff_ne, ne_eq]
    intro e; exact htab (e ▸ hc)
  rw [h3] at h2
  exact h2

theorem not_mem_Replace (x : Char) (q old v : Str) (hold : old ≠ [])
    (hq : x ∉ q) (hv : x ∉ v) : x ∉ Replace q old v := by
  rw [Replace_eq_replaceScan _ _ _ hold]
  intro h
  rcases mem_replaceScan old v hold x q.length q (Nat.le_refl _) h with h | h
  · exact hq h
  · exact hv h

theorem not_mem_substLoop (tbl : Char → Bool) (x : Char) (args : List Arg)
    (hargs : ∀ a ∈ args, x ∉ render tbl a) :
    ∀ (i : Nat) (q : Str), x ∉ q → x ∉ substLoop tbl PlaceholderDollar i q args := by
  induction args with
  | nil => intro i q h; simpa [substLoop] using h
  | cons a as ih =>
    intro i q h
    simp only [substLoop]
    apply ih (fun b hb => hargs b (List.mem_cons_of_mem _ hb))
    exact not_mem_Replace x q _ _ (by simp [PlaceholderDollar]) h
      (hargs a (List.mem_cons_self _ _))

theorem plainValue_Quote (tbl : Char → Bool) (s : Str) (hs : '$' ∉ s) :
    plainValue (Quote tbl s) = true := by
  have h := not_mem_Quote_dollar tbl s hs
  have h2 : (Quote tbl s).contains '$' = false := by
    rw [← Bool.not_eq_true]; simpa using h
  unfold plainValue
  rw [h2]
  rfl

/-! ## The formatter: claims -/

/-- C6: the template `SELECT * FROM users WHERE id = $1 AND name = $2` with the arguments
integer 42 and string "Alice" is formatted to
`SELECT * FROM users WHERE id = 42 AND name = "Alice"`; the integer is rendered by its
decimal text and the string is rendered double-quoted. -/
theorem Pretty_example_users (tbl : Char → Bool) :
    Pretty tbl "SELECT * FROM users WHERE id = $1 AND name = $2".toList PlaceholderDollar
        [Arg.int 42, Arg.str "Alice".toList]
      = "SELECT * FROM users WHERE id = 42 AND name = \"Alice\"".toList ∧
    render tbl (Arg.int 42) = "42".toList ∧
    render tbl (Arg.str "Alice".toList) = "\"Alice\"".toList :=
  ⟨rfl, rfl, rfl⟩

/-- C5: for every template, placeholder and argument list the output of `Pretty` is the
substituted text with tabs removed, each remaining newline turned into one space, and
surrounding whitespace trimmed; it contains no tab and no newline, and neither starts nor
ends with whitespace. The template `SELECT 1\n\tFROM dual` without arguments gives
`SELECT 1 FROM dual`. -/
theorem Pretty_single_line (tbl : Char → Bool) (query placeholder : Str) (args : List Arg) :
    Pretty tbl query placeholder args = normalise (substLoop tbl placeholder 0 query args) ∧
    '\t' ∉ Pretty tbl query placeholder args ∧
    '\n' ∉ Pretty tbl query placeholder args ∧
    (Pretty tbl query placeholder args).head?.map isSpace ≠ some true ∧
    (Pretty tbl query placeholder args).getLast?.map isSpace ≠ some true ∧
    Pretty tbl "SELECT 1\n\tFROM dual".toList placeholder [] = "SELECT 1 FROM dual".toList := by
  have hmem : ∀ x, x ∈ Pretty tbl query placeholder args →
      ∃ c, c ≠ '\t' ∧ x = if c = '\n' then ' ' else c := by
    intro x hx
    rw [Pretty_eq] at hx
    have h1 := (TrimSpace_within _).subset hx
    obtain ⟨c, hc, hcx⟩ := List.mem_map.mp h1
    have h2 := (List.mem_filter.mp hc).2
    exact ⟨c, by simpa using h2, hcx.symm⟩
  refine ⟨Pretty_eq tbl query placeholder args, ?_, ?_, ?_, ?_, rfl⟩
  · intro h
    obtain ⟨c, hc, e⟩ := hmem _ h
    by_cases hn : c = '\n'
    · rw [if_pos hn] at e; exact absurd e (by decide)
    · rw [if_neg hn] at e; exact hc e.symm
  · intro h
    obtain ⟨c, -, e⟩ := hmem _ h
    by_cases hn : c = '\n'
    · rw [if_pos hn] at e; exact absurd e (by decide)
    · rw [if_neg hn] at e; exact hn e.symm
  · rw [Pretty_eq]; exact TrimSpace_head _
  · rw [Pretty_eq]; exact TrimSpace_getLast _

/-- C10: for every template without a tab and every list of `n` string arguments none of
which contains `$` (`n` may exceed 9), the output of `Pretty` in the numbered-dollar style
contains no token `$i` with `1 ≤ i ≤ n`. -/
theorem Pretty_strings_no_bound_token (tbl : Char → Bool) (template : Str)
    (strs : List Str) (htab : '\t' ∉ template) (hs : ∀ s ∈ strs, '$' ∉ s)
    (i : Nat) (h1 : 1 ≤ i) (h2 : i ≤ strs.length) :
    ¬ dollarToken i <:+: Pretty tbl template PlaceholderDollar (strs.map Arg.str) := by
  intro h
  have hplain : ∀ a ∈ strs.map Arg.str, plainValue (render tbl a) = true := by
    intro a ha
    obtain ⟨s, hs1, rfl⟩ := List.mem_map.mp ha
    exact plainValue_Quote tbl s (hs s hs1)
  have hnotab : ∀ a ∈ strs.map Arg.str, '\t' ∉ render tbl a := by
    intro a ha
    obtain ⟨s, -, rfl⟩ := List.mem_map.mp ha
    exact not_mem_Quote_tab tbl s
  have h3 := infix_of_infix_Pretty tbl template PlaceholderDollar _ (Itoa i) (Itoa_isDigit i)
    (not_mem_substLoop tbl '\t' _ hnotab 0 template htab) h
  exact substLoop_kills_tokens tbl _ hplain 0 template i (by omega)
    (by simpa using h2) h3

/-- C10 at ten string arguments and a template that also holds the unbound `$11`. -/
theorem Pretty_strings_no_bound_token_witness :
    '\t' ∉ "$1 $2 $3 $4 $5 $6 $7 $8 $9 $10 $11".toList ∧
    (∀ s ∈ ["a", "b", "c", "d", "e", "f", "g", "h", "i", "j"].map String.toList, '$' ∉ s) ∧
    ¬ dollarToken 10 <:+: Pretty (fun _ => true) "$1 $2 $3 $4 $5 $6 $7 $8 $9 $10 $11".toList
      PlaceholderDollar
      ((["a", "b", "c", "d", "e", "f", "g", "h", "i", "j"].map String.toList).map Arg.str) :=
  ⟨by decide, by decide,
    Pretty_strings_no_bound_token (fun _ => true) "$1 $2 $3 $4 $5 $6 $7 $8 $9 $10 $11".toList
      (["a", "b", "c", "d", "e", "f", "g", "h", "i", "j"].map String.toList)
      (by decide) (by decide) 10 (by decide) (by decide)⟩

/-- C8 (code at the failing input): with `PlaceholderQuestion` the loop looks for `?1`,
`?2`, and so on, so a bare `?` is never replaced: the template
`SELECT * FROM users WHERE id = ?` with the argument 42 comes back unchanged, while `?1`
would have been replaced. -/
theorem Pretty_question_mark_unchanged (tbl : Char → Bool) :
    Pretty tbl "SELECT * FROM users WHERE id = ?".toList PlaceholderQuestion [Arg.int 42]
      = "SELECT * FROM users WHERE id = ?".toList ∧
    Pretty tbl "SELECT * FROM users WHERE id = ?1".toList PlaceholderQuestion [Arg.int 42]
      = "SELECT * FROM users WHERE id = 42".toList :=
  ⟨rfl, rfl⟩

/-- C1 (code at the failing input): with ten arguments every `$i`, `1 ≤ i ≤ 10`, occurs in
the template `$1 $2 $3 $4 $5 $6 $7 $8 $9 $10`, yet the first pass of the loop replaces the
`$1` inside `$10`, so the tenth pass finds nothing: the output ends in the first value
followed by `0`, it is not the text with `$10` replaced by the tenth value, and the rendered
tenth argument occurs nowhere in it. -/
theorem Pretty_tenth_argument_lost :
    (∀ i ∈ List.range' 1 10, dollarToken i <:+: "$1 $2 $3 $4 $5 $6 $7 $8 $9 $10".toList) ∧
    Pretty (fun _ => true) "$1 $2 $3 $4 $5 $6 $7 $8 $9 $10".toList PlaceholderDollar
        ((["a", "b", "c", "d", "e", "f", "g", "h", "i", "j"].map String.toList).map Arg.str)
      = "\"a\" \"b\" \"c\" \"d\" \"e\" \"f\" \"g\" \"h\" \"i\" \"a\"0".toList ∧
    Pretty (fun _ => true) "$1 $2 $3 $4 $5 $6 $7 $8 $9 $10".toList PlaceholderDollar
        ((["a", "b", "c", "d", "e", "f", "g", "h", "i", "j"].map String.toList).map Arg.str)
      ≠ "\"a\" \"b\" \"c\" \"d\" \"e\" \"f\" \"g\" \"h\" \"i\" \"j\"".toList ∧
    'j' ∉ Pretty (fun _ => true) "$1 $2 $3 $4 $5 $6 $7 $8 $9 $10".toList PlaceholderDollar
        ((["a", "b", "c", "d", "e", "f", "g", "h", "i", "j"].map String.toList).map Arg.str) := by
  refine ⟨?_, rfl, ?_, ?_⟩
  · decide
  · decide
  · decide

/-- C7 (code at the failing input): with the single argument 7 the placeholder `$10` of the
template `$10` is unbound, yet the pass for `$1` replaces its first two characters: the
output is `70` and `$10` no longer occurs in it. -/
theorem Pretty_unbound_token_consumed :
    [Arg.int 7].length < 10 ∧
    dollarToken 10 <:+: "$10".toList ∧
    Pretty (fun _ => true) "$10".toList PlaceholderDollar [Arg.int 7] = "70".toList ∧
    ¬ dollarToken 10 <:+: Pretty (fun _ => true) "$10".toList PlaceholderDollar [Arg.int 7] := by
  refine ⟨by decide, ⟨[], [], rfl⟩, rfl, ?_⟩
  intro h
  have := h.length_le
  exact absurd this (by decide)

end prettier

/-! ## The executor -/

namespace pg

open prettier (Str Arg Pretty PlaceholderDollar)

theorem txOf_ContextWithSpan (ctx : Context) (span : Nat) :
    txOf (ContextWithSpan ctx span) = txOf ctx := by
  simp [txOf, ContextWithSpan, Context.Value, TxKey]

/-- The world in which `QueryContext` finishes is its prologue followed by the one driver
call on the routed receiver, the error tags if the call failed, and the end of the span. -/
theorem QueryContext_eq (d : Driver) (w : World) (ctx : Context) (q : Query)
    (args : List Arg) :
    QueryContext d w ctx q args =
      (d.query (prologue d w ctx q args).trace (route ctx) (ContextWithSpan ctx w.nextSpan)
          q.QueryRaw args,
        { trace := (prologue d w ctx q args).trace ++
            (Event.query (route ctx) (ContextWithSpan ctx w.nextSpan) q.QueryRaw args ::
              (match (d.query (prologue d w ctx q args).trace (route ctx)
                  (ContextWithSpan ctx w.nextSpan) q.QueryRaw args).2 with
                | some e => [Event.spanSetTag w.nextSpan "error".toList (TagValue.flag true),
                    Event.spanSetTag w.nextSpan "err".toList (TagValue.text e.msg)]
                | none => []) ++ [Event.spanFinish w.nextSpan]),
          nextSpan := w.nextSpan + 1 }) := by
  unfold QueryContext
  simp only [StartSpanFromContext, txOf_ContextWithSpan, route, prologue]
  cases htx : txOf ctx with
  | some tx =>
    simp only []
    rcases hr : d.query _ (Target.tx tx) _ _ _ with ⟨rows, err⟩
    cases err <;> simp [tagError, emit, logQuery]
  | none =>
    simp only []
    rcases hr : d.query _ Target.pool _ _ _ with ⟨rows, err⟩
    cases err <;> simp [tagError, emit, logQuery]

theorem ExecContext_eq (d : Driver) (w : World) (ctx : Context) (q : Query)
    (args : List Arg) :
    ExecContext d w ctx q args =
      (d.exec (prologue d w ctx q args).trace (route ctx) (ContextWithSpan ctx w.nextSpan)
          q.QueryRaw args,
        { trace := (prologue d w ctx q args).trace ++
            (Event.exec (route ctx) (ContextWithSpan ctx w.nextSpan) q.QueryRaw args ::
              (match (d.exec (prologue d w ctx q args).trace (route ctx)
                  (ContextWithSpan ctx w.nextSpan) q.QueryRaw args).2 with
                | some e => [Event.spanSetTag w.nextSpan "error".toList (TagValue.flag true),
                    Event.spanSetTag w.nextSpan "err".toList (TagValue.text e.msg)]
                | none => []) ++ [Event.spanFinish w.nextSpan]),
          nextSpan := w.nextSpan + 1 }) := by
  unfold ExecContext
  simp only [StartSpanFromContext, txOf_ContextWithSpan, route, prologue]
  cases htx : txOf ctx with
  | some tx =>
    simp only []
    rcases hr : d.exec _ (Target.tx tx) _ _ _ with ⟨pgc, err⟩
    cases err <;> simp [tagError, emit, logQuery]
  | none =>
    simp only []
    rcases hr : d.exec _ Target.pool _ _ _ with ⟨pgc, err⟩
    cases err <;> simp [tagError, emit, logQuery]

theorem QueryRowContext_eq (d : Driver) (w : World) (ctx : Context) (q : Query)
    (args : List Arg) :
    QueryRowContext d w ctx q args =
      (d.queryRow (prologue d w ctx q args).trace (route ctx) (ContextWithSpan ctx w.nextSpan)
          q.QueryRaw args,
        { trace := (prologue d w ctx q args).trace ++
            [Event.queryRow (route ctx) (ContextWithSpan ctx w.nextSpan) q.QueryRaw args,
              Event.spanFinish w.nextSpan],
          nextSpan := w.nextSpan + 1 }) := by
  unfold QueryRowContext
  simp only [StartSpanFromContext, txOf_ContextWithSpan, route, prologue]
  cases htx : txOf ctx <;> simp [emit, logQuery]

theorem prologue_trace (d : Driver) (w : World) (ctx : Context) (q : Query)
    (args : List Arg) :
    (prologue d w ctx q args).trace = w.trace ++
      [Event.spanStart w.nextSpan (SpanFromContext ctx) q.Name
          [("query".toList, TagValue.text q.QueryRaw)],
        Event.logLine (ContextWithSpan ctx w.nextSpan) ("sql: ".toList ++ q.Name)
          ("query: ".toList ++ Pretty d.printTable q.QueryRaw PlaceholderDollar args)] := by
  simp [prologue, logQuery, emit, StartSpanFromContext]

theorem prologue_nextSpan (d : Driver) (w : World) (ctx : Context) (q : Query)
    (args : List Arg) : (prologue d w ctx q args).nextSpan = w.nextSpan + 1 := rfl

theorem route_ContextWithSpan (ctx : Context) (span : Nat) :
    route (ContextWithSpan ctx span) = route ctx := by
  simp [route, txOf_ContextWithSpan]

theorem ScanOneContext_calls (d : Driver) (w : World) (ctx : Context) (q : Query)
    (args : List Arg) :
    driverCallsSince w (ScanOneContext d w ctx q args).2 =
      [DriverCall.query (route ctx) q.QueryRaw args] := by
  unfold ScanOneContext
  have hp : logQuery d
      (StartSpanFromContext w ctx q.Name [("query".toList, TagValue.text q.QueryRaw)]).2
      (StartSpanFromContext w ctx q.Name [("query".toList, TagValue.text q.QueryRaw)]).1.2
      q args = prologue d w ctx q args := rfl
  simp only [hp, QueryContext_eq, route_ContextWithSpan, prologue_nextSpan]
  repeat' split
  all_goals
    simp [tagError, emit, prologue_trace, driverCallsSince, StartSpanFromContext,
      Event.driverCall, route_ContextWithSpan]

theorem ScanAllContext_calls (d : Driver) (w : World) (ctx : Context) (q : Query)
    (args : List Arg) :
    driverCallsSince w (ScanAllContext d w ctx q args).2 =
      [DriverCall.query (route ctx) q.QueryRaw args] := by
  unfold ScanAllContext
  have hp : logQuery d
      (StartSpanFromContext w ctx q.Name [("query".toList, TagValue.text q.QueryRaw)]).2
      (StartSpanFromContext w ctx q.Name [("query".toList, TagValue.text q.QueryRaw)]).1.2
      q args = prologue d w ctx q args := rfl
  simp only [hp, QueryContext_eq, route_ContextWithSpan, prologue_nextSpan]
  repeat' split
  all_goals
    simp [tagError, emit, prologue_trace, driverCallsSince, StartSpanFromContext,
      Event.driverCall, route_ContextWithSpan]

theorem BeginTx_eq (d : Driver) (w : World) (ctx : Context) (txOptions : Nat) :
    BeginTx d w ctx txOptions =
      (d.beginTx (w.trace ++ [Event.spanStart w.nextSpan (SpanFromContext ctx)
            "BeginTx".toList []]) (ContextWithSpan ctx w.nextSpan) txOptions,
        { trace := w.trace ++
            [Event.spanStart w.nextSpan (SpanFromContext ctx) "BeginTx".toList [],
              Event.beginTx (ContextWithSpan ctx w.nextSpan) txOptions,
              Event.spanFinish w.nextSpan],
          nextSpan := w.nextSpan + 1 }) := by
  simp [BeginTx, StartSpanFromContext, emit]

theorem ExecContext_calls (d : Driver) (w : World) (ctx : Context) (q : Query)
    (args : List Arg) :
    driverCallsSince w (ExecContext d w ctx q args).2 =
      [DriverCall.exec (route ctx) q.QueryRaw args] := by
  rw [ExecContext_eq]
  split <;> simp [prologue_trace, driverCallsSince, Event.driverCall]

theorem QueryContext_calls (d : Driver) (w : World) (ctx : Context) (q : Query)
    (args : List Arg) :
    driverCallsSince w (QueryContext d w ctx q args).2 =
      [DriverCall.query (route ctx) q.QueryRaw args] := by
  rw [QueryContext_eq]
  split <;> simp [prologue_trace, driverCallsSince, Event.driverCall]

theorem QueryRowContext_calls (d : Driver) (w : World) (ctx : Context) (q : Query)
    (args : List Arg) :
    driverCallsSince w (QueryRowContext d w ctx q args).2 =
      [DriverCall.queryRow (route ctx) q.QueryRaw args] := by
  rw [QueryRowContext_eq]
  simp [prologue_trace, driverCallsSince, Event.driverCall]

/-- C2: for each routed operation, every query descriptor and every argument list, the
driver calls of the operation are exactly one call, with the descriptor's raw query and the
given arguments: on the transaction handle when the context carries one under `TxKey` (the
pool then receives no call), on the pool when it carries none (no transaction then receives
a call). -/
theorem routed_dispatch (d : Driver) (w : World) (ctx : Context) (q : Query)
    (args : List Arg) :
    (∀ tx, txOf ctx = some tx →
      driverCallsSince w (ExecContext d w ctx q args).2
          = [DriverCall.exec (Target.tx tx) q.QueryRaw args] ∧
      driverCallsSince w (QueryContext d w ctx q args).2
          = [DriverCall.query (Target.tx tx) q.QueryRaw args] ∧
      driverCallsSince w (QueryRowContext d w ctx q args).2
          = [DriverCall.queryRow (Target.tx tx) q.QueryRaw args] ∧
      driverCallsSince w (ScanOneContext d w ctx q args).2
          = [DriverCall.query (Target.tx tx) q.QueryRaw args] ∧
      driverCallsSince w (ScanAllContext d w ctx q args).2
          = [DriverCall.query (Target.tx tx) q.QueryRaw args]) ∧
    (txOf ctx = none →
      driverCallsSince w (ExecContext d w ctx q args).2
          = [DriverCall.exec Target.pool q.QueryRaw args] ∧
      driverCallsSince w (QueryContext d w ctx q args).2
          = [DriverCall.query Target.pool q.QueryRaw args] ∧
      driverCallsSince w (QueryRowContext d w ctx q args).2
          = [DriverCall.queryRow Target.pool q.QueryRaw args] ∧
      driverCallsSince w (ScanOneContext d w ctx q args).2
          = [DriverCall.query Target.pool q.QueryRaw args] ∧
      driverCallsSince w (ScanAllContext d w ctx q args).2
          = [DriverCall.query Target.pool q.QueryRaw args]) := by
  constructor
  · intro tx h
    have hr : route ctx = Target.tx tx := by simp [route, h]
    rw [ExecContext_calls, QueryContext_calls, QueryRowContext_calls, ScanOneContext_calls,
      ScanAllContext_calls, hr]
    exact ⟨rfl, rfl, rfl, rfl, rfl⟩
  · intro h
    have hr : route ctx = Target.pool := by simp [route, h]
    rw [ExecContext_calls, QueryContext_calls, QueryRowContext_calls, ScanOneContext_calls,
      ScanAllContext_calls, hr]
    exact ⟨rfl, rfl, rfl, rfl, rfl⟩

/-- C2 at an exec call under a transaction and a scan-one call without one. -/
theorem routed_dispatch_witness :
    txOf (MakeContextTx Context.background (some ⟨7⟩)) = some ⟨7⟩ ∧
    driverCallsSince ⟨[], 0⟩
        (ExecContext healthyDriver ⟨[], 0⟩ (MakeContextTx Context.background (some ⟨7⟩))
          ⟨"user.Create".toList, "INSERT INTO users (name) VALUES ($1)".toList⟩
          [Arg.str "Alice".toList]).2
      = [DriverCall.exec (Target.tx ⟨7⟩) "INSERT INTO users (name) VALUES ($1)".toList
          [Arg.str "Alice".toList]] ∧
    txOf Context.background = none ∧
    driverCallsSince ⟨[], 0⟩
        (ScanOneContext healthyDriver ⟨[], 0⟩ Context.background
          ⟨"user.Get".toList, "SELECT name FROM users WHERE id = $1".toList⟩ [Arg.int 1]).2
      = [DriverCall.query Target.pool "SELECT name FROM users WHERE id = $1".toList
          [Arg.int 1]] :=
  ⟨rfl,
    ((routed_dispatch healthyDriver ⟨[], 0⟩ (MakeContextTx Context.background (some ⟨7⟩))
      ⟨"user.Create".toList, "INSERT INTO users (name) VALUES ($1)".toList⟩
      [Arg.str "Alice".toList]).1 ⟨7⟩ rfl).1,
    rfl,
    ((routed_dispatch healthyDriver ⟨[], 0⟩ Context.background
      ⟨"user.Get".toList, "SELECT name FROM users WHERE id = $1".toList⟩
      [Arg.int 1]).2 rfl).2.2.2.1⟩

/-- C3: when the driver's exec call, made on the transaction handle or on the pool, fails
with error `e`, `ExecContext` returns the driver's command result together with `e` itself,
and what it does from start to end is: open its span, log the query, make the call, set the
span tag `error` to true, set the span tag `err` to the text of `e`, finish the span. -/
theorem ExecContext_driver_error (d : Driver) (w : World) (ctx : Context) (q : Query)
    (args : List Arg) (pgc : Str) (e : GoError)
    (hfail : d.exec (prologue d w ctx q args).trace (route ctx)
      (ContextWithSpan ctx w.nextSpan) q.QueryRaw args = (pgc, some e)) :
    (ExecContext d w ctx q args).1 = (pgc, some e) ∧
    eventsSince w (ExecContext d w ctx q args).2 =
      [Event.spanStart w.nextSpan (SpanFromContext ctx) q.Name
          [("query".toList, TagValue.text q.QueryRaw)],
        Event.logLine (ContextWithSpan ctx w.nextSpan) ("sql: ".toList ++ q.Name)
          ("query: ".toList ++ Pretty d.printTable q.QueryRaw PlaceholderDollar args),
        Event.exec (route ctx) (ContextWithSpan ctx w.nextSpan) q.QueryRaw args,
        Event.spanSetTag w.nextSpan "error".toList (TagValue.flag true),
        Event.spanSetTag w.nextSpan "err".toList (TagValue.text e.msg),
        Event.spanFinish w.nextSpan] := by
  rw [ExecContext_eq, hfail]
  simp [prologue_trace, eventsSince]

/-- C3 at an exec call under a transaction on a driver that fails with `connection reset`. -/
theorem ExecContext_driver_error_witness :
    (ExecContext (failingDriver ⟨1, "connection reset".toList⟩) ⟨[], 0⟩
        (MakeContextTx Context.background (some ⟨7⟩))
        ⟨"user.Create".toList, "INSERT INTO users (name) VALUES ($1)".toList⟩
        [Arg.str "Alice".toList]).1 = ([], some ⟨1, "connection reset".toList⟩) ∧
    eventsSince ⟨[], 0⟩
        (ExecContext (failingDriver ⟨1, "connection reset".toList⟩) ⟨[], 0⟩
          (MakeContextTx Context.background (some ⟨7⟩))
          ⟨"user.Create".toList, "INSERT INTO users (name) VALUES ($1)".toList⟩
          [Arg.str "Alice".toList]).2 =
      [Event.spanStart 0 none "user.Create".toList
          [("query".toList, TagValue.text "INSERT INTO users (name) VALUES ($1)".toList)],
        Event.logLine (ContextWithSpan (MakeContextTx Context.background (some ⟨7⟩)) 0)
          "sql: user.Create".toList
          "query: INSERT INTO users (name) VALUES (\"Alice\")".toList,
        Event.exec (Target.tx ⟨7⟩)
          (ContextWithSpan (MakeContextTx Context.background (some ⟨7⟩)) 0)
          "INSERT INTO users (name) VALUES ($1)".toList [Arg.str "Alice".toList],
        Event.spanSetTag 0 "error".toList (TagValue.flag true),
        Event.spanSetTag 0 "err".toList (TagValue.text "connection reset".toList),
        Event.spanFinish 0] :=
  ExecContext_driver_error (failingDriver ⟨1, "connection reset".toList⟩) ⟨[], 0⟩
    (MakeContextTx Context.background (some ⟨7⟩))
    ⟨"user.Create".toList, "INSERT INTO users (name) VALUES ($1)".toList⟩
    [Arg.str "Alice".toList] [] ⟨1, "connection reset".toList⟩ rfl

/-- C4: for every context that carries no transaction handle and every transaction handle
`tx`, the lookup of `TxKey` as a transaction handle in `MakeContextTx ctx tx` gives `tx`,
present; the lookup in `ctx` itself still gives absent, and every other key of the derived
context reads as it does in `ctx`. -/
theorem MakeContextTx_lookup (ctx : Context) (tx : TxHandle) (h : txOf ctx = none) :
    txOf (MakeContextTx ctx (some tx)) = some tx ∧
    txOf ctx = none ∧
    ∀ k, k ≠ TxKey → (MakeContextTx ctx (some tx)).Value k = ctx.Value k := by
  refine ⟨by simp [txOf, MakeContextTx, Context.Value], h, ?_⟩
  intro k hk
  have hne : ¬ TxKey = k := fun e => hk e.symm
  simp [MakeContextTx, Context.Value, hne]

/-- C4 at a context that holds one unrelated value. -/
theorem MakeContextTx_lookup_witness :
    txOf (Context.withValue Context.background (Key.foreign 3) (Any.foreign 5)) = none ∧
    txOf (MakeContextTx
      (Context.withValue Context.background (Key.foreign 3) (Any.foreign 5)) (some ⟨7⟩))
        = some ⟨7⟩ :=
  ⟨rfl, (MakeContextTx_lookup
    (Context.withValue Context.background (Key.foreign 3) (Any.foreign 5)) ⟨7⟩ rfl).1⟩

/-- C9 (code at the failing input): whatever the pool answers, `BeginTx` only starts its
span, calls the pool and finishes the span; when the pool fails with `e` the error is
returned but the span gets no `error` and no `err` tag, whereas `QueryContext` on the same
failing driver tags its span before finishing it. -/
theorem BeginTx_error_untagged (d : Driver) (e : GoError) (w : World) (ctx : Context)
    (q : Query) (args : List Arg) (txOptions : Nat) :
    eventsSince w (BeginTx d w ctx txOptions).2 =
      [Event.spanStart w.nextSpan (SpanFromContext ctx) "BeginTx".toList [],
        Event.beginTx (ContextWithSpan ctx w.nextSpan) txOptions,
        Event.spanFinish w.nextSpan] ∧
    (BeginTx (failingDriver e) w ctx txOptions).1 = (none, some e) ∧
    eventsSince w (BeginTx (failingDriver e) w ctx txOptions).2 =
      [Event.spanStart w.nextSpan (SpanFromContext ctx) "BeginTx".toList [],
        Event.beginTx (ContextWithSpan ctx w.nextSpan) txOptions,
        Event.spanFinish w.nextSpan] ∧
    eventsSince (prologue (failingDriver e) w ctx q args)
        (QueryContext (failingDriver e) w ctx q args).2 =
      [Event.query (route ctx) (ContextWithSpan ctx w.nextSpan) q.QueryRaw args,
        Event.spanSetTag w.nextSpan "error".toList (TagValue.flag true),
        Event.spanSetTag w.nextSpan "err".toList (TagValue.text e.msg),
        Event.spanFinish w.nextSpan] := by
  refine ⟨?_, ?_, ?_, ?_⟩
  · rw [BeginTx_eq]; simp [eventsSince]
  · rw [BeginTx_eq]; rfl
  · rw [BeginTx_eq]; simp [eventsSince]
  · rw [QueryContext_eq]; simp [eventsSince, failingDriver]

end pg
